import Mathlib

set_option linter.unusedVariables false

/-! Verification development for the ii18n repository.

Strings are modelled as lists of characters; the Go byte indices produced
by strings.Index coincide with character indices on the ASCII inputs that
appear in the claims.  The scan loop of tokenizePattern is embedded with an
explicit fuel parameter: a result of none means the loop has not exited
within the given fuel, so a proof of "= none for every fuel" states that
the loop never exits, i.e. the Go code diverges on that input. -/

abbrev Str := List Char

def s2l (s : String) : Str := s.data

/-- Go strings.Index for a one-character needle: index of the first
occurrence of the character, or -1 when it does not occur. -/
def idxOf (c : Char) : Str → Int
  | [] => -1
  | x :: xs =>
    if x = c then 0
    else if idxOf c xs = -1 then -1 else idxOf c xs + 1

/-- Go slice expression cs[a:b] (meaningful for 0 ≤ a ≤ b ≤ length). -/
def sliceStr (cs : Str) (a b : Int) : Str := (cs.take b.toNat).drop a.toNat

/-- Possible exits of tokenizePattern: a token list, the nil return used
for invalid patterns, or a slice-bounds panic. -/
inductive TokResult where
  | ok (tokens : List Str)
  | invalid
  | panicked
deriving DecidableEq, Repr

/-- The final check of tokenizePattern: return nil when depth is nonzero,
otherwise the token list. -/
def exitRes (depth : Int) (tokens : List Str) : TokResult :=
  if depth ≠ 0 then .invalid else .ok tokens

/-- The scan loop of Formatter.tokenizePattern, one fuel unit per Go loop
iteration.  pos, depth and start are Go ints; op0 and cl are the results of
strings.Index on pattern[pos+1:], so they are indices relative to that
substring, exactly as the Go code computes them. -/
def tokenizeLoop (cs : Str) : Nat → Int → Int → Int → List Str → Option TokResult
  | 0, _, _, _, _ => none
  | fuel+1, pos, depth, start, tokens =>
    if pos + 1 > (cs.length : Int) then some (exitRes depth tokens)
    else
      let rest := cs.drop (pos + 1).toNat
      let op0 := idxOf '{' rest
      let cl := idxOf '}' rest
      if op0 = -1 ∧ cl = -1 then some (exitRes depth tokens)
      else
        let op := if op0 = -1 then (cs.length : Int) else op0
        let depth' := if cl > op then depth + 1 else depth - 1
        let pos' := if cl > op then op else cl
        if depth' = 0 then
          -- Go: start = pos + 1; tokens = append(tokens, pattern[start:open]); start = open
          -- The slice panics when start exceeds open.
          if pos' + 1 ≤ op then
            tokenizeLoop cs fuel pos' depth' op (tokens ++ [sliceStr cs (pos' + 1) op])
          else some .panicked
        else
          if op = -1 ∨ cl = -1 then some (exitRes depth' tokens)
          else tokenizeLoop cs fuel pos' depth' start tokens

/-- Formatter.tokenizePattern. -/
def tokenizePattern (fuel : Nat) (pattern : Str) : Option TokResult :=
  let pos := idxOf '{' pattern
  if pos = -1 then some (.ok [pattern])
  else tokenizeLoop pattern fuel pos 1 pos [pattern.take pos.toNat]

/-- Results of Formatter.format. -/
inductive FmtResult where
  | ok (s : Str)
  | err (msg : Str)
  | panicked
deriving DecidableEq, Repr

/-- Formatter.format: nil tokens yield the invalid-pattern error, otherwise
the tokens are joined with the empty separator. -/
def format (fuel : Nat) (pattern : Str) : Option FmtResult :=
  match tokenizePattern fuel pattern with
  | none => none
  | some .invalid => some (.err (s2l "message pattern is invalid"))
  | some .panicked => some .panicked
  | some (.ok toks) => some (.ok toks.flatten)

/-- Reinsert the brace delimiters around the placeholder (odd-position)
segments and concatenate; the boolean says whether the next segment is a
placeholder. -/
def reconstruct : List Str → Bool → Str
  | [], _ => []
  | s :: rest, false => s ++ reconstruct rest true
  | s :: rest, true => '{' :: (s ++ '}' :: reconstruct rest false)

def helloPat : Str :=
  ['H','e','l','l','o',',',' ','{','n','a','m','e','}','!']

def nestedPat : Str := ['{','a','{','b','}','c','}']

def unbalPat : Str := ['{','a','{','b','}']

def emptyBracesPat : Str := ['{','}']

/-- When the scan is at position p1 with the next brace pair making it jump
to p2 while incrementing depth, and symmetrically from p2 back to p1, the
loop cycles forever once depth is at least 1: it returns none for every
fuel. -/
theorem tokenizeLoop_cycle (cs : Str) (p1 p2 o1 c1 o2 c2 : Int)
    (h1a : ¬ p1 + 1 > (cs.length : Int))
    (h1b : idxOf '{' (cs.drop (p1 + 1).toNat) = o1)
    (h1c : idxOf '}' (cs.drop (p1 + 1).toNat) = c1)
    (h1d : ¬ o1 = -1) (h1e : ¬ c1 = -1) (h1f : c1 > o1) (h1g : o1 = p2)
    (h2a : ¬ p2 + 1 > (cs.length : Int))
    (h2b : idxOf '{' (cs.drop (p2 + 1).toNat) = o2)
    (h2c : idxOf '}' (cs.drop (p2 + 1).toNat) = c2)
    (h2d : ¬ o2 = -1) (h2e : ¬ c2 = -1) (h2f : c2 > o2) (h2g : o2 = p1) :
    ∀ fuel : Nat, ∀ d start tokens, 1 ≤ d →
      tokenizeLoop cs fuel p1 d start tokens = none ∧
      tokenizeLoop cs fuel p2 d start tokens = none := by
  intro fuel
  induction fuel with
  | zero => intro d start tokens _; exact ⟨rfl, rfl⟩
  | succ n ih =>
    intro d start tokens hd
    have hd0 : ¬ d + 1 = 0 := by omega
    have hA1 : ¬ (o1 = -1 ∧ c1 = -1) := fun h => h1d h.1
    have hB1 : ¬ (o1 = -1 ∨ c1 = -1) := by rintro (h | h) <;> [exact h1d h; exact h1e h]
    have hA2 : ¬ (o2 = -1 ∧ c2 = -1) := fun h => h2d h.1
    have hB2 : ¬ (o2 = -1 ∨ c2 = -1) := by rintro (h | h) <;> [exact h2d h; exact h2e h]
    constructor
    · simp only [tokenizeLoop, h1b, h1c, if_neg h1a, if_neg hA1, if_neg h1d,
        if_pos h1f, if_neg hd0, if_neg hB1]
      rw [h1g]
      exact (ih (d + 1) start tokens (by omega)).2
    · simp only [tokenizeLoop, h2b, h2c, if_neg h2a, if_neg hA2, if_neg h2d,
        if_pos h2f, if_neg hd0, if_neg hB2]
      rw [h2g]
      exact (ih (d + 1) start tokens (by omega)).1

/-- When the scan is at position p with the closing brace found at relative
index c = p and no further increment possible, the loop keeps decrementing
depth at the same position forever once depth is at most -1. -/
theorem tokenizeLoop_sink (cs : Str) (p o0 c : Int)
    (ha : ¬ p + 1 > (cs.length : Int))
    (hb : idxOf '{' (cs.drop (p + 1).toNat) = o0)
    (hc : idxOf '}' (cs.drop (p + 1).toNat) = c)
    (hA : ¬ (o0 = -1 ∧ c = -1))
    (hle : ¬ c > (if o0 = -1 then (cs.length : Int) else o0))
    (hcne : ¬ c = -1)
    (hone : ¬ (if o0 = -1 then (cs.length : Int) else o0) = -1)
    (hself : c = p) :
    ∀ fuel : Nat, ∀ d start tokens, d ≤ -1 →
      tokenizeLoop cs fuel p d start tokens = none := by
  intro fuel
  induction fuel with
  | zero => intro d start tokens _; rfl
  | succ n ih =>
    intro d start tokens hd
    have hd0 : ¬ d - 1 = 0 := by omega
    have hB : ¬ ((if o0 = -1 then (cs.length : Int) else o0) = -1 ∨ c = -1) := by
      rintro (h | h) <;> [exact hone h; exact hcne h]
    simp only [tokenizeLoop, hb, hc, if_neg ha, if_neg hA, if_neg hle,
      if_neg hd0, if_neg hB]
    rw [hself]
    exact ih (d - 1) start tokens (by omega)

/-- C1.  The spec claims tokenizing "Hello, {name}!" yields the three
segments and tokenizing the nested pattern yields its three segments; the
code instead never returns on either input: strings.Index is applied to
pattern[pos+1:] yet its relative result is assigned to the absolute cursor
pos, so the scan cycles between two positions with depth growing forever.
For every fuel the loop has not exited. -/
theorem C1_tokenize_examples_diverge :
    ∀ fuel : Nat,
      tokenizePattern fuel helloPat = none ∧
      tokenizePattern fuel nestedPat = none := by
  intro fuel
  constructor
  · show tokenizeLoop helloPat fuel 7 1 7 [helloPat.take (7 : Int).toNat] = none
    match fuel with
    | 0 => rfl
    | 1 => rfl
    | (n+2) =>
      have e1 : tokenizeLoop helloPat (n+2) 7 1 7 [helloPat.take (7 : Int).toNat]
          = tokenizeLoop helloPat (n+1) 4 0 14
              ([helloPat.take (7 : Int).toNat] ++ [sliceStr helloPat 5 14]) := rfl
      have e2 : tokenizeLoop helloPat (n+1) 4 0 14
              ([helloPat.take (7 : Int).toNat] ++ [sliceStr helloPat 5 14])
          = tokenizeLoop helloPat n 2 1 14
              ([helloPat.take (7 : Int).toNat] ++ [sliceStr helloPat 5 14]) := rfl
      rw [e1, e2]
      exact (tokenizeLoop_cycle helloPat 2 4 4 9 2 7 (by decide) (by decide)
        (by decide) (by decide) (by decide) (by decide) (by decide) (by decide)
        (by decide) (by decide) (by decide) (by decide) (by decide) (by decide)
        n 1 14 _ (by omega)).1
  · show tokenizeLoop nestedPat fuel 0 1 0 [nestedPat.take (0 : Int).toNat] = none
    exact (tokenizeLoop_cycle nestedPat 0 1 1 3 0 2 (by decide) (by decide)
      (by decide) (by decide) (by decide) (by decide) (by decide) (by decide)
      (by decide) (by decide) (by decide) (by decide) (by decide) (by decide)
      fuel 1 0 _ (by omega)).1

/-- C2.  The claim says the scan loop terminates on every input.  It does
not: on the two-character pattern of an opening and a closing brace the
loop first reaches depth 0 at position 0, then keeps finding the same
closing brace (relative index 0 is reused as the absolute cursor) and
decrements depth forever, so for every fuel the loop has not exited. -/
theorem C2_tokenize_not_total :
    ∀ fuel : Nat, tokenizePattern fuel emptyBracesPat = none := by
  intro fuel
  show tokenizeLoop emptyBracesPat fuel 0 1 0 [emptyBracesPat.take (0 : Int).toNat] = none
  match fuel with
  | 0 => rfl
  | 1 => rfl
  | (n+2) =>
    have e1 : tokenizeLoop emptyBracesPat (n+2) 0 1 0 [emptyBracesPat.take (0 : Int).toNat]
        = tokenizeLoop emptyBracesPat (n+1) 0 0 2
            ([emptyBracesPat.take (0 : Int).toNat] ++ [sliceStr emptyBracesPat 1 2]) := rfl
    have e2 : tokenizeLoop emptyBracesPat (n+1) 0 0 2
            ([emptyBracesPat.take (0 : Int).toNat] ++ [sliceStr emptyBracesPat 1 2])
        = tokenizeLoop emptyBracesPat n 0 (-1) 2
            ([emptyBracesPat.take (0 : Int).toNat] ++ [sliceStr emptyBracesPat 1 2]) := rfl
    rw [e1, e2]
    exact tokenizeLoop_sink emptyBracesPat 0 (-1) 0 (by decide) (by decide)
      (by decide) (by decide) (by decide) (by decide) (by decide) (by decide)
      n (-1) 2 _ (by omega)

/-- C4.  The spec claims unbalanced patterns make tokenization return nil
and format surface the invalid-pattern error.  On the unbalanced pattern
with an unterminated outer placeholder the scan instead cycles between
positions 0 and 1 with depth growing forever, so neither tokenizePattern
nor format ever returns: for every fuel both are still running. -/
theorem C4_unbalanced_never_fails :
    ∀ fuel : Nat,
      tokenizePattern fuel unbalPat = none ∧ format fuel unbalPat = none := by
  intro fuel
  have h : tokenizePattern fuel unbalPat = none := by
    show tokenizeLoop unbalPat fuel 0 1 0 [unbalPat.take (0 : Int).toNat] = none
    exact (tokenizeLoop_cycle unbalPat 0 1 1 3 0 2 (by decide) (by decide)
      (by decide) (by decide) (by decide) (by decide) (by decide) (by decide)
      (by decide) (by decide) (by decide) (by decide) (by decide) (by decide)
      fuel 1 0 _ (by omega)).1
  refine ⟨h, ?_⟩
  unfold format
  rw [h]

theorem mem_of_getElem_opt {l : Str} {n : Nat} {a : Char} (h : l[n]? = some a) :
    a ∈ l := by
  obtain ⟨hlt, he⟩ := List.getElem?_eq_some_iff.mp h
  exact he ▸ List.getElem_mem hlt

/-- idxOf either misses (result -1, character absent) or hits a valid
index holding the character. -/
theorem idxOf_cases (c : Char) (l : Str) :
    (idxOf c l = -1 ∧ c ∉ l) ∨
    (∃ k : Nat, idxOf c l = (k : Int) ∧ l[k]? = some c) := by
  induction l with
  | nil => exact Or.inl ⟨rfl, List.not_mem_nil c⟩
  | cons x xs ih =>
    by_cases hx : x = c
    · exact Or.inr ⟨0, by simp [idxOf, hx], by simp [hx]⟩
    · rcases ih with ⟨h1, h2⟩ | ⟨k, hk, hget⟩
      · refine Or.inl ⟨by simp [idxOf, hx, h1], ?_⟩
        intro hmem
        rcases List.mem_cons.mp hmem with h | h
        · exact hx h.symm
        · exact h2 h
      · have hne : ¬ idxOf c xs = -1 := by rw [hk]; omega
        refine Or.inr ⟨k + 1, ?_, by simpa using hget⟩
        simp only [idxOf, if_neg hx, if_neg hne, hk]
        push_cast
        ring

theorem idxOf_ne_neg_one_of_mem {c : Char} {l : Str} (h : c ∈ l) :
    ¬ idxOf c l = -1 := by
  rcases idxOf_cases c l with ⟨_, hnm⟩ | ⟨k, hk, _⟩
  · exact absurd h hnm
  · rw [hk]; omega

/-- The character found at relative index k of the substring after the
cursor is still ahead of position k, as long as the cursor is nonnegative. -/
theorem brace_ahead (cs : Str) (pos : Int) (k : Nat) (ch : Char)
    (hpos : 0 ≤ pos)
    (hget : (cs.drop (pos + 1).toNat)[k]? = some ch) :
    ch ∈ cs.drop ((k : Int) + 1).toNat := by
  have h1 : cs[(pos + 1).toNat + k]? = some ch := by
    rw [← List.getElem?_drop]; exact hget
  have h2 : (((k : Int) + 1).toNat) = k + 1 := by omega
  rw [h2]
  have h3 : (cs.drop (k + 1))[pos.toNat]? = some ch := by
    rw [List.getElem?_drop]
    have he : k + 1 + pos.toNat = (pos + 1).toNat + k := by omega
    rw [he]; exact h1
  exact mem_of_getElem_opt h3


/-- Once the pattern contains an opening brace, the scan loop can only
exit with nil or a panic, never with a token list.  Invariant: the cursor
is at least -1 and is -1 only at depth 0, and a state with depth 0 still
has a brace ahead of the cursor (the brace just consumed when the cursor
is nonnegative, or the pattern's first opening brace when the cursor was
moved to -1), so no exit is ever taken while depth is zero. -/
theorem tokenizeLoop_no_ok (cs : Str) (hb : '{' ∈ cs) :
    ∀ fuel : Nat, ∀ pos depth start tokens,
      -1 ≤ pos →
      (pos = -1 → depth = 0) →
      (depth = 0 → pos + 1 ≤ (cs.length : Int) ∧
        ∃ c, c ∈ cs.drop (pos + 1).toNat ∧ (c = '{' ∨ c = '}')) →
      ∀ toks, tokenizeLoop cs fuel pos depth start tokens ≠ some (.ok toks) := by
  intro fuel
  induction fuel with
  | zero =>
    intro pos depth start tokens _ _ _ toks h
    exact Option.noConfusion h
  | succ n ih =>
    intro pos depth start tokens hpos hneg hz toks
    by_cases h1 : pos + 1 > (cs.length : Int)
    · -- first break: impossible at depth 0, so the exit value is nil
      simp only [tokenizeLoop, if_pos h1]
      by_cases hdz : depth = 0
      · exact absurd (hz hdz).1 (by omega)
      · simp [exitRes, hdz]
    · have hcast : ((pos + 1).toNat : Int) = pos + 1 := Int.toNat_of_nonneg (by omega)
      have hrlen : (cs.drop (pos + 1).toNat).length = cs.length - (pos + 1).toNat :=
        List.length_drop ..
      have hp0 : depth = 1 → 0 ≤ pos := by
        intro hdepth
        rcases (by omega : pos = -1 ∨ 0 ≤ pos) with hm | hge
        · have := hneg hm; omega
        · exact hge
      rcases idxOf_cases '{' (cs.drop (pos + 1).toNat) with ⟨ho, honm⟩ | ⟨ko, hko, hkoget⟩
      · rcases idxOf_cases '}' (cs.drop (pos + 1).toNat) with ⟨hc, hcnm⟩ | ⟨kc, hkcv, hkcget⟩
        · -- neither brace ahead: impossible at depth 0, exit value is nil
          simp only [tokenizeLoop, if_neg h1, if_pos (And.intro ho hc)]
          by_cases hdz : depth = 0
          · obtain ⟨_, c, hcm, hcor⟩ := hz hdz
            rcases hcor with rfl | rfl
            · exact absurd hcm honm
            · exact absurd hcm hcnm
          · simp [exitRes, hdz]
        · -- no opening brace ahead (op becomes the length), closing at kc:
          -- depth decremented, cursor moved to the relative index kc
          have hkclt : kc < (cs.drop (pos + 1).toNat).length :=
            (List.getElem?_eq_some_iff.mp hkcget).1
          have hAo : ¬ (idxOf '{' (cs.drop (pos + 1).toNat) = -1 ∧
              idxOf '}' (cs.drop (pos + 1).toNat) = -1) := by
            rw [ho, hkcv]; omega
          have hOP : (if idxOf '{' (cs.drop (pos + 1).toNat) = -1 then (cs.length : Int)
              else idxOf '{' (cs.drop (pos + 1).toNat)) = (cs.length : Int) := if_pos ho
          have hgtn : ¬ (idxOf '}' (cs.drop (pos + 1).toNat) > (cs.length : Int)) := by
            rw [hkcv]; omega
          simp only [tokenizeLoop, if_neg h1, if_neg hAo, hOP, if_neg hgtn]
          by_cases hd1 : depth - 1 = 0
          · have hp := hp0 (by omega)
            have hinp : idxOf '}' (cs.drop (pos + 1).toNat) + 1 ≤ (cs.length : Int) := by
              rw [hkcv]; omega
            simp only [if_pos hd1, if_pos hinp]
            rw [hkcv, hd1]
            exact ih (kc : Int) 0 (cs.length : Int) _ (by omega)
              (by intro h; omega)
              (fun _ => ⟨by omega, '}', brace_ahead cs pos kc '}' hp hkcget, Or.inr rfl⟩)
              toks
          · have hB : ¬ ((cs.length : Int) = -1 ∨
                idxOf '}' (cs.drop (pos + 1).toNat) = -1) := by
              rw [hkcv]; omega
            simp only [if_neg hd1, if_neg hB]
            rw [hkcv]
            exact ih (kc : Int) (depth - 1) start tokens (by omega)
              (by intro h; omega) (fun h => absurd h hd1) toks
      · have hkolt : ko < (cs.drop (pos + 1).toNat).length :=
          (List.getElem?_eq_some_iff.mp hkoget).1
        have hkone : ¬ (idxOf '{' (cs.drop (pos + 1).toNat) = -1) := by
          rw [hko]; omega
        have hOP : (if idxOf '{' (cs.drop (pos + 1).toNat) = -1 then (cs.length : Int)
            else idxOf '{' (cs.drop (pos + 1).toNat)) =
            idxOf '{' (cs.drop (pos + 1).toNat) := if_neg hkone
        rcases idxOf_cases '}' (cs.drop (pos + 1).toNat) with ⟨hc, hcnm⟩ | ⟨kc, hkcv, hkcget⟩
        · -- closing brace absent: cursor moves to -1 while depth is decremented
          have hAo : ¬ (idxOf '{' (cs.drop (pos + 1).toNat) = -1 ∧
              idxOf '}' (cs.drop (pos + 1).toNat) = -1) := fun hand => hkone hand.1
          have hgtn : ¬ (idxOf '}' (cs.drop (pos + 1).toNat) >
              idxOf '{' (cs.drop (pos + 1).toNat)) := by
            rw [hko, hc]; omega
          simp only [tokenizeLoop, if_neg h1, if_neg hAo, hOP, if_neg hgtn]
          by_cases hd1 : depth - 1 = 0
          · have hinp : idxOf '}' (cs.drop (pos + 1).toNat) + 1 ≤
                idxOf '{' (cs.drop (pos + 1).toNat) := by
              rw [hko, hc]; omega
            simp only [if_pos hd1, if_pos hinp]
            rw [hc, hd1]
            refine ih (-1) 0 (idxOf '{' (cs.drop (pos + 1).toNat)) _ (by omega)
              (fun _ => rfl) (fun _ => ⟨by omega, '{', ?_, Or.inl rfl⟩) toks
            have hz0 : ((-1 : Int) + 1).toNat = 0 := by omega
            rw [hz0, List.drop_zero]
            exact hb
          · simp only [if_neg hd1, if_pos (Or.inr hc)]
            simp [exitRes, hd1]
        · -- both braces ahead
          have hkclt : kc < (cs.drop (pos + 1).toNat).length :=
            (List.getElem?_eq_some_iff.mp hkcget).1
          have hAo : ¬ (idxOf '{' (cs.drop (pos + 1).toNat) = -1 ∧
              idxOf '}' (cs.drop (pos + 1).toNat) = -1) := fun hand => hkone hand.1
          have hkne : kc ≠ ko := by
            intro he
            rw [he, hkoget] at hkcget
            simp at hkcget
          have hB : ¬ (idxOf '{' (cs.drop (pos + 1).toNat) = -1 ∨
              idxOf '}' (cs.drop (pos + 1).toNat) = -1) := by
            rw [hko, hkcv]; omega
          by_cases hgt : (kc : Int) > (ko : Int)
          · -- opening first: depth incremented, cursor moved to ko
            have hgtp : idxOf '}' (cs.drop (pos + 1).toNat) >
                idxOf '{' (cs.drop (pos + 1).toNat) := by
              rw [hko, hkcv]; exact hgt
            simp only [tokenizeLoop, if_neg h1, if_neg hAo, hOP, if_pos hgtp]
            by_cases hd1 : depth + 1 = 0
            · have hko1 : ¬ (idxOf '{' (cs.drop (pos + 1).toNat) + 1 ≤
                  idxOf '{' (cs.drop (pos + 1).toNat)) := by omega
              simp only [if_pos hd1, if_neg hko1]
              simp
            · simp only [if_neg hd1, if_neg hB]
              rw [hko]
              exact ih (ko : Int) (depth + 1) start tokens (by omega)
                (by intro h; omega) (fun h => absurd h hd1) toks
          · -- closing first: depth decremented, cursor moved to kc
            have hgtn : ¬ (idxOf '}' (cs.drop (pos + 1).toNat) >
                idxOf '{' (cs.drop (pos + 1).toNat)) := by
              rw [hko, hkcv]; exact hgt
            simp only [tokenizeLoop, if_neg h1, if_neg hAo, hOP, if_neg hgtn]
            by_cases hd1 : depth - 1 = 0
            · have hp := hp0 (by omega)
              have hinp : idxOf '}' (cs.drop (pos + 1).toNat) + 1 ≤
                  idxOf '{' (cs.drop (pos + 1).toNat) := by
                rw [hko, hkcv]; omega
              simp only [if_pos hd1, if_pos hinp]
              rw [hkcv, hd1]
              exact ih (kc : Int) 0 (idxOf '{' (cs.drop (pos + 1).toNat)) _ (by omega)
                (by intro h; omega)
                (fun _ => ⟨by omega, '}', brace_ahead cs pos kc '}' hp hkcget, Or.inr rfl⟩)
                toks
            · simp only [if_neg hd1, if_neg hB]
              rw [hkcv]
              exact ih (kc : Int) (depth - 1) start tokens (by omega)
                (by intro h; omega) (fun h => absurd h hd1) toks

/-- C3.  For every pattern on which tokenization succeeds, reinserting the
brace delimiters around the odd-position segments and concatenating
reproduces the input.  Under this code the only successful tokenizations
are of patterns with no opening brace, returned as a single segment, for
which the reconstruction is the identity. -/
theorem C3_roundtrip (p : Str) (fuel : Nat) (toks : List Str)
    (h : tokenizePattern fuel p = some (.ok toks)) :
    reconstruct toks false = p := by
  unfold tokenizePattern at h
  by_cases hp : idxOf '{' p = -1
  · rw [if_pos hp] at h
    simp only [Option.some.injEq, TokResult.ok.injEq] at h
    rw [← h]
    simp [reconstruct]
  · rw [if_neg hp] at h
    rcases idxOf_cases '{' p with ⟨h1, _⟩ | ⟨k, hk, hget⟩
    · exact absurd h1 hp
    · have hmem : '{' ∈ p := mem_of_getElem_opt hget
      have hk0 : (0 : Int) ≤ idxOf '{' p := by rw [hk]; omega
      exact absurd h (tokenizeLoop_no_ok p hmem fuel (idxOf '{' p) 1 (idxOf '{' p)
        [p.take (idxOf '{' p).toNat] (by omega) (by intro hm; omega)
        (by intro hm; omega) toks)

/-- Concrete instance of C3 with the hypotheses discharged on a
brace-free pattern. -/
theorem C3_roundtrip_witness :
    tokenizePattern 1 (s2l "ab") = some (.ok [s2l "ab"]) ∧
    reconstruct [s2l "ab"] false = s2l "ab" :=
  ⟨by decide, C3_roundtrip (s2l "ab") 1 [s2l "ab"] (by decide)⟩

/-! Embedding of source.go.  Go maps are modelled as association lists with
unique keys; map indexing that misses returns the zero value, map assignment
replaces in place.  A nil map is distinct from an empty one, so values that
can be nil are wrapped in Option.  The injected loader is a field returning
the (table, error) pair of Go; the Nat in each result counts how many times
the loader was invoked during the call. -/

abbrev TMsgs := List (Str × Str)

def mapLookup (k : Str) : List (Str × α) → Option α
  | [] => none
  | (k', v) :: rest => if k' = k then some v else mapLookup k rest

def mapInsert (k : Str) (v : α) : List (Str × α) → List (Str × α)
  | [] => [(k, v)]
  | (k', v') :: rest => if k' = k then (k, v) :: rest else (k', v') :: mapInsert k v rest

/-- Go map indexing m[k] on a possibly-nil table: a nil table misses. -/
def optLookup (t : Option TMsgs) (k : Str) : Option Str :=
  mapLookup k (t.getD [])

structure MessageSource where
  SourceLang : Str
  ForceTranslation : Bool
  BasePath : Str
  FileMap : List (Str × Str)
  fileSuffix : Str
  loadFunc : Str → Option TMsgs × Option Str

abbrev Cache := List (Str × Option TMsgs)

/-- Go strings.Split(s, ".") for the one-character separator. -/
def splitOnDot : Str → List Str
  | [] => [[]]
  | c :: cs =>
    if c = '.' then [] :: splitOnDot cs
    else
      match splitOnDot cs with
      | [] => [[c]]
      | t :: ts => (c :: t) :: ts

/-- Element 1 of the split (the Go code indexes cates[1] unconditionally;
categories are expected to contain a dot). -/
def nth1 (l : List Str) : Str := (l[1]?).getD []

/-- MessageSource.GetMsgFilePath.  Note the Go code binds v, ok from the
FileMap lookup and appends v when !ok - the zero value, an empty string -
while an existing entry falls to the else branch that appends the
normalized suffix and the optional extension. -/
def GetMsgFilePath (ms : MessageSource) (category lang : Str) : Str :=
  let suffix := nth1 (splitOnDot category)
  let path := ms.BasePath ++ '/' :: lang ++ ['/']
  match mapLookup suffix ms.FileMap with
  | none => path ++ []
  | some _ =>
    let path := path ++ suffix.map (fun c => if c = '\\' then '/' else c)
    if ms.fileSuffix ≠ [] then path ++ '.' :: ms.fileSuffix else path

/-- The cache key built at the top of TranslateMsg:
cates[0] + "/" + lang + "/" + cates[1]. -/
def cacheKey (category lang : Str) : Str :=
  (splitOnDot category).headD [] ++ '/' :: lang ++ '/' :: nth1 (splitOnDot category)

/-- The merge loop of LoadFallbackMsgs: fill a fallback entry into the
primary table when the fallback value is non-empty and the primary lacks
the key or maps it to the empty string. -/
def mergeFallback (msgs fallbackMsgs : TMsgs) : TMsgs :=
  fallbackMsgs.foldl
    (fun acc kv =>
      if kv.2 ≠ [] ∧ (mapLookup kv.1 acc = none ∨ mapLookup kv.1 acc = some [])
      then mapInsert kv.1 kv.2 acc else acc)
    msgs

/-- MessageSource.LoadFallbackMsgs.  The loader's error for the fallback
file is discarded; the Go code slices SourceLang[0:2], total here via take
(the Go code would panic on a source language shorter than two bytes). -/
def LoadFallbackMsgs (ms : MessageSource) (category fallbackLang : Str)
    (msgs : Option TMsgs) (originalMsgFile : Str) :
    Except Str (Option TMsgs) × Nat :=
  let fallbackMsgFile := GetMsgFilePath ms category fallbackLang
  let fallbackMsgs := (ms.loadFunc fallbackMsgFile).1
  if msgs = none ∧ fallbackMsgs = none ∧
      fallbackLang ≠ ms.SourceLang ∧ fallbackLang ≠ ms.SourceLang.take 2 then
    (.error (s2l "The message file for category " ++ category ++
      s2l " does not exist: " ++ originalMsgFile ++
      s2l " Fallback file does not exist as well: " ++ fallbackMsgFile), 1)
  else if msgs = none then (.ok fallbackMsgs, 1)
  else if fallbackMsgs ≠ none then
    (.ok (some (mergeFallback (msgs.getD []) (fallbackMsgs.getD []))), 1)
  else (.ok msgs, 1)

/-- MessageSource.LoadMsgs.  lang[0:2] and SourceLang[0:2] are modelled by
take 2 (the Go code would panic on codes shorter than two bytes; theorems
about this function assume length at least 2 where they quantify over
languages). -/
def LoadMsgs (ms : MessageSource) (category lang : Str) :
    Except Str (Option TMsgs) × Nat :=
  let msgFile := GetMsgFilePath ms category lang
  let res := ms.loadFunc msgFile
  match res.2 with
  | some e => (.error e, 1)
  | none =>
    let msgs := res.1
    let fallbackLang := lang.take 2
    let fallbackSourceLang := ms.SourceLang.take 2
    if lang ≠ fallbackLang then
      let r := LoadFallbackMsgs ms category fallbackLang msgs msgFile
      (r.1, 1 + r.2)
    else if lang = fallbackSourceLang then
      let r := LoadFallbackMsgs ms category ms.SourceLang msgs msgFile
      (r.1, 1 + r.2)
    else
      match msgs with
      | none => (.error (s2l "the message file for category " ++ category ++
                  s2l " does not exist: " ++ msgFile), 1)
      | some m => (.ok (some m), 1)

/-- The tail of TranslateMsg after the cache has been ensured: read the
table back from the cache, return a non-empty hit, otherwise replace the
cached table with the single negative-sentinel entry and return empty. -/
def translateFinish (key message : Str) (cache : Cache) (n : Nat) :
    Except Str Str × Cache × Nat :=
  let tbl : Option TMsgs := (mapLookup key cache).getD none
  match optLookup tbl message with
  | some msg =>
    if msg ≠ [] then (.ok msg, cache, n)
    else (.ok [], mapInsert key (some [(message, [])]) cache, n)
  | none => (.ok [], mapInsert key (some [(message, [])]) cache, n)

/-- MessageSource.TranslateMsg, with the messages cache passed and
returned explicitly. -/
def TranslateMsg (ms : MessageSource) (cache : Cache)
    (category message lang : Str) : Except Str Str × Cache × Nat :=
  let key := cacheKey category lang
  match mapLookup key cache with
  | some _ => translateFinish key message cache 0
  | none =>
    match LoadMsgs ms category lang with
    | (.error e, n) => (.error e, cache, n)
    | (.ok val, n) => translateFinish key message (mapInsert key val cache) n

/-- MessageSource.Translate. -/
def Translate (ms : MessageSource) (cache : Cache)
    (category message lang : Str) : Except Str Str × Cache × Nat :=
  if ms.ForceTranslation ∨ lang ≠ ms.SourceLang then
    TranslateMsg ms cache category message lang
  else (.ok [], cache, 0)

theorem mapLookup_mapInsert_self (k : Str) (v : α) (m : List (Str × α)) :
    mapLookup k (mapInsert k v m) = some v := by
  induction m with
  | nil => simp [mapInsert, mapLookup]
  | cons p rest ih =>
    obtain ⟨k', v'⟩ := p
    by_cases h : k' = k
    · simp [mapInsert, mapLookup, h]
    · simp [mapInsert, mapLookup, h, ih]

theorem mapLookup_mapInsert_ne (k q : Str) (v : α) (m : List (Str × α))
    (h : ¬ k = q) : mapLookup q (mapInsert k v m) = mapLookup q m := by
  induction m with
  | nil => simp [mapInsert, mapLookup, h]
  | cons p rest ih =>
    obtain ⟨k', v'⟩ := p
    by_cases hk : k' = k
    · subst hk
      simp [mapInsert, mapLookup, h]
    · simp [mapInsert, mapLookup, hk, ih]

theorem mapInsert_mapInsert_self (k : Str) (v w : α) (m : List (Str × α)) :
    mapInsert k v (mapInsert k w m) = mapInsert k v m := by
  induction m with
  | nil => simp [mapInsert]
  | cons p rest ih =>
    obtain ⟨k', v'⟩ := p
    by_cases h : k' = k
    · simp [mapInsert, h]
    · simp [mapInsert, h, ih]

theorem mergeFallback_cons (acc : TMsgs) (kv : Str × Str) (rest : TMsgs) :
    mergeFallback acc (kv :: rest) =
      mergeFallback
        (if kv.2 ≠ [] ∧ (mapLookup kv.1 acc = none ∨ mapLookup kv.1 acc = some [])
         then mapInsert kv.1 kv.2 acc else acc) rest := rfl

theorem mergeFallback_lookup_not_mem (k : Str) :
    ∀ (fb : TMsgs) (acc : TMsgs), k ∉ fb.map Prod.fst →
      mapLookup k (mergeFallback acc fb) = mapLookup k acc := by
  intro fb
  induction fb with
  | nil => intro acc _; rfl
  | cons kv rest ih =>
    intro acc hk
    simp only [List.map_cons, List.mem_cons, not_or] at hk
    obtain ⟨hk1, hk2⟩ := hk
    rw [mergeFallback_cons, ih _ hk2]
    by_cases hc : kv.2 ≠ [] ∧ (mapLookup kv.1 acc = none ∨ mapLookup kv.1 acc = some [])
    · rw [if_pos hc, mapLookup_mapInsert_ne _ _ _ _ (fun he => hk1 he.symm)]
    · rw [if_neg hc]

/-- Per-key semantics of the fallback merge loop: a fallback entry lands in
the result exactly when its value is non-empty and the primary lacks the
key or maps it to the empty string. -/
theorem mergeFallback_lookup (k v : Str) :
    ∀ (fb : TMsgs) (acc : TMsgs), (fb.map Prod.fst).Nodup →
      mapLookup k fb = some v →
      mapLookup k (mergeFallback acc fb) =
        if v ≠ [] ∧ (mapLookup k acc = none ∨ mapLookup k acc = some [])
        then some v else mapLookup k acc := by
  intro fb
  induction fb with
  | nil =>
    intro acc _ hlk
    exact absurd hlk (by simp [mapLookup])
  | cons kv rest ih =>
    intro acc hnd hlk
    obtain ⟨k1, v1⟩ := kv
    simp only [List.map_cons, List.nodup_cons] at hnd
    obtain ⟨hknotin, hndrest⟩ := hnd
    rw [mergeFallback_cons]
    by_cases hk : k1 = k
    · subst hk
      have hv : v1 = v := by simpa [mapLookup] using hlk
      subst hv
      rw [mergeFallback_lookup_not_mem k1 rest _ hknotin]
      by_cases hc : v1 ≠ [] ∧ (mapLookup k1 acc = none ∨ mapLookup k1 acc = some [])
      · rw [if_pos hc, if_pos hc, mapLookup_mapInsert_self]
      · rw [if_neg hc, if_neg hc]
    · have hlk2 : mapLookup k rest = some v := by simpa [mapLookup, hk] using hlk
      have hstep : mapLookup k
          (if v1 ≠ [] ∧ (mapLookup k1 acc = none ∨ mapLookup k1 acc = some [])
           then mapInsert k1 v1 acc else acc) = mapLookup k acc := by
        by_cases hc : v1 ≠ [] ∧ (mapLookup k1 acc = none ∨ mapLookup k1 acc = some [])
        · rw [if_pos hc, mapLookup_mapInsert_ne _ _ _ _ hk]
        · rw [if_neg hc]
      rw [ih _ hndrest hlk2, hstep]

theorem splitOnDot_no_dot (a : Str) (h : '.' ∉ a) : splitOnDot a = [a] := by
  induction a with
  | nil => rfl
  | cons c cs ih =>
    simp only [List.mem_cons, not_or] at h
    obtain ⟨h1, h2⟩ := h
    have hcd : ¬ c = '.' := fun he => h1 he.symm
    simp [splitOnDot, hcd, ih h2]

theorem splitOnDot_append (a rest : Str) (h : '.' ∉ a) :
    splitOnDot (a ++ '.' :: rest) = a :: splitOnDot rest := by
  induction a with
  | nil => simp [splitOnDot]
  | cons c cs ih =>
    simp only [List.mem_cons, not_or] at h
    obtain ⟨h1, h2⟩ := h
    have hcd : ¬ c = '.' := fun he => h1 he.symm
    simp [splitOnDot, hcd, ih h2]

theorem loadMsgs_calls_pos (ms : MessageSource) (category lang : Str) :
    1 ≤ (LoadMsgs ms category lang).2 := by
  simp only [LoadMsgs]
  rcases hres : ms.loadFunc (GetMsgFilePath ms category lang) with ⟨msgs, err⟩
  simp only [hres]
  cases err with
  | some e => simp
  | none =>
    by_cases h1 : lang ≠ List.take 2 lang
    · rw [if_pos h1]
      simp
    · rw [if_neg h1]
      by_cases h2 : lang = List.take 2 ms.SourceLang
      · rw [if_pos h2]
        simp
      · rw [if_neg h2]
        cases msgs <;> simp

def msFive : MessageSource :=
  { SourceLang := s2l "en", ForceTranslation := false, BasePath := s2l "base",
    FileMap := [(s2l "app", s2l "custom")], fileSuffix := s2l "json",
    loadFunc := fun _ => (none, none) }

def msFiveEmpty : MessageSource :=
  { SourceLang := s2l "en", ForceTranslation := false, BasePath := s2l "base",
    FileMap := [], fileSuffix := s2l "json",
    loadFunc := fun _ => (none, none) }

/-- C5.  The claim says the path ends in the FileMap override when the map
has an entry for the suffix and otherwise in the suffix itself.  The Go
code binds v, ok from the map and appends v in the !ok branch, where v is
the zero value: with an entry present (suffix app mapped to custom) the
suffix path base/en/app.json is produced instead of the override, and with
no entry the bare directory base/en/ is produced instead of the suffix
path. -/
theorem C5_fileMap_inverted :
    GetMsgFilePath msFive (s2l "ns.app") (s2l "en") = s2l "base/en/app.json" ∧
    GetMsgFilePath msFive (s2l "ns.app") (s2l "en") ≠ s2l "base/en/custom" ∧
    GetMsgFilePath msFiveEmpty (s2l "ns.app") (s2l "en") = s2l "base/en/" := by
  refine ⟨by decide, by decide, by decide⟩

/-- C6.  Resolving a key that the loaded table lacks (or maps to the empty
string) returns the empty string with no error, stores the single-entry
negative-sentinel table for that key under the cache key, and a second
resolution of the same key hits the cache: it performs zero loader calls
and leaves the cache unchanged.  The three length hypotheses state the
well-formedness the Go code assumes (a dotted category and two-byte
language prefixes; without them the Go code panics on slicing). -/
theorem C6_negative_cache (ms : MessageSource) (cache : Cache)
    (category message lang : Str) (tbl : Option TMsgs) (n : Nat)
    (hcat : 1 < (splitOnDot category).length)
    (hlang : 2 ≤ lang.length) (hsl : 2 ≤ ms.SourceLang.length)
    (hkey : mapLookup (cacheKey category lang) cache = none)
    (hload : LoadMsgs ms category lang = (.ok tbl, n))
    (hmiss : optLookup tbl message = none ∨ optLookup tbl message = some []) :
    TranslateMsg ms cache category message lang =
      (.ok [], mapInsert (cacheKey category lang) (some [(message, [])]) cache, n) ∧
    TranslateMsg ms (mapInsert (cacheKey category lang) (some [(message, [])]) cache)
        category message lang =
      (.ok [], mapInsert (cacheKey category lang) (some [(message, [])]) cache, 0) := by
  constructor
  · simp only [TranslateMsg, hkey, hload]
    simp only [translateFinish, mapLookup_mapInsert_self, Option.getD_some]
    rcases hmiss with hm | hm
    · rw [hm, mapInsert_mapInsert_self]
    · rw [hm]
      simp [mapInsert_mapInsert_self]
  · simp only [TranslateMsg, mapLookup_mapInsert_self]
    simp only [translateFinish, mapLookup_mapInsert_self, Option.getD_some]
    simp [optLookup, mapLookup, mapInsert_mapInsert_self]

def msSix : MessageSource :=
  { SourceLang := s2l "en", ForceTranslation := false, BasePath := s2l "base",
    FileMap := [], fileSuffix := [],
    loadFunc := fun f => if f = s2l "base/de-DE/" then (some [], none) else (none, none) }

/-- Concrete instance of C6: the unknown key hello is resolved twice under
category app.msg and language de-DE; the first call loads (two loader
calls: primary and fallback), the second performs none. -/
theorem C6_witness :
    TranslateMsg msSix [] (s2l "app.msg") (s2l "hello") (s2l "de-DE") =
      (.ok [], mapInsert (cacheKey (s2l "app.msg") (s2l "de-DE"))
        (some [(s2l "hello", [])]) [], 2) ∧
    TranslateMsg msSix (mapInsert (cacheKey (s2l "app.msg") (s2l "de-DE"))
        (some [(s2l "hello", [])]) []) (s2l "app.msg") (s2l "hello") (s2l "de-DE") =
      (.ok [], mapInsert (cacheKey (s2l "app.msg") (s2l "de-DE"))
        (some [(s2l "hello", [])]) [], 0) :=
  C6_negative_cache msSix [] (s2l "app.msg") (s2l "hello") (s2l "de-DE")
    (some []) 2 (by decide) (by decide) (by decide) rfl rfl (Or.inl rfl)

/-- C7.  When LoadMsgs fails inside TranslateMsg the error is returned
as-is and the cache is left exactly as it was - no entry is stored - and
the loader was called at least once, so an identical later call repeats
the load attempt.  Length hypotheses as in C6. -/
theorem C7_failed_load_not_cached (ms : MessageSource) (cache : Cache)
    (category message lang e : Str) (n : Nat)
    (hcat : 1 < (splitOnDot category).length)
    (hlang : 2 ≤ lang.length) (hsl : 2 ≤ ms.SourceLang.length)
    (hkey : mapLookup (cacheKey category lang) cache = none)
    (hload : LoadMsgs ms category lang = (.error e, n)) :
    TranslateMsg ms cache category message lang = (.error e, cache, n) ∧ 1 ≤ n := by
  constructor
  · simp only [TranslateMsg, hkey, hload]
  · have h := loadMsgs_calls_pos ms category lang
    rw [hload] at h
    simpa using h

def msSeven : MessageSource :=
  { SourceLang := s2l "en", ForceTranslation := false, BasePath := s2l "base",
    FileMap := [], fileSuffix := [],
    loadFunc := fun _ => (none, some (s2l "boom")) }

/-- Concrete instance of C7: a loader failure propagates and caches
nothing. -/
theorem C7_witness :
    TranslateMsg msSeven [] (s2l "app.msg") (s2l "hello") (s2l "de-DE") =
      (.error (s2l "boom"), [], 1) ∧ 1 ≤ 1 :=
  C7_failed_load_not_cached msSeven [] (s2l "app.msg") (s2l "hello") (s2l "de-DE")
    (s2l "boom") 1 (by decide) (by decide) (by decide) rfl rfl

/-- C8.  With a non-nil primary table and a fallback file that loads a
table with unique keys, LoadFallbackMsgs returns the merge of the two, and
per key of the fallback table the fallback value is written exactly when
it is non-empty and the primary lacks the key or maps it to the empty
string; otherwise the primary value stands. -/
theorem C8_fallback_merge (ms : MessageSource) (category fallbackLang origFile : Str)
    (m fb : TMsgs) (err : Option Str)
    (hload : ms.loadFunc (GetMsgFilePath ms category fallbackLang) = (some fb, err))
    (hnd : (fb.map Prod.fst).Nodup) :
    LoadFallbackMsgs ms category fallbackLang (some m) origFile =
      (.ok (some (mergeFallback m fb)), 1) ∧
    ∀ k v, mapLookup k fb = some v →
      mapLookup k (mergeFallback m fb) =
        if v ≠ [] ∧ (mapLookup k m = none ∨ mapLookup k m = some [])
        then some v else mapLookup k m := by
  constructor
  · simp only [LoadFallbackMsgs, hload]
    simp
  · intro k v hkv
    exact mergeFallback_lookup k v fb m hnd hkv

def fbEight : TMsgs :=
  [(s2l "hi", s2l "Hallo"), (s2l "empty", s2l "Leer"), (s2l "extra", s2l "Extra")]

def mEight : TMsgs := [(s2l "hi", s2l "Hi"), (s2l "empty", [])]

def msEight : MessageSource :=
  { SourceLang := s2l "en", ForceTranslation := false, BasePath := s2l "b",
    FileMap := [], fileSuffix := [],
    loadFunc := fun f => if f = s2l "b/de/" then (some fbEight, none) else (none, none) }

/-- Concrete instance of C8: requesting de-DE with a primary table that
has a non-empty hi, an empty (negative-cached) empty and no extra; the
generic de table fills empty and extra while hi keeps its primary
value. -/
theorem C8_witness :
    LoadFallbackMsgs msEight (s2l "app.msg") (s2l "de") (some mEight) (s2l "b/de-DE/") =
      (.ok (some (mergeFallback mEight fbEight)), 1) ∧
    mapLookup (s2l "extra") (mergeFallback mEight fbEight) =
      (if s2l "Extra" ≠ [] ∧ (mapLookup (s2l "extra") mEight = none ∨
          mapLookup (s2l "extra") mEight = some [])
       then some (s2l "Extra") else mapLookup (s2l "extra") mEight) :=
  ⟨(C8_fallback_merge msEight (s2l "app.msg") (s2l "de") (s2l "b/de-DE/")
      mEight fbEight none rfl (by decide)).1,
   (C8_fallback_merge msEight (s2l "app.msg") (s2l "de") (s2l "b/de-DE/")
      mEight fbEight none rfl (by decide)).2 (s2l "extra") (s2l "Extra") rfl⟩

/-- C9.  Translate returns the empty string with no error, an unchanged
cache and zero loader calls when the language equals the configured source
language and force-translation is off; in every other case it is exactly
TranslateMsg. -/
theorem C9_translate_source_lang (ms : MessageSource) (cache : Cache)
    (category message lang : Str) :
    ((¬ ms.ForceTranslation ∧ lang = ms.SourceLang) →
      Translate ms cache category message lang = (.ok [], cache, 0)) ∧
    ((ms.ForceTranslation ∨ lang ≠ ms.SourceLang) →
      Translate ms cache category message lang =
        TranslateMsg ms cache category message lang) := by
  constructor
  · rintro ⟨hf, hl⟩
    unfold Translate
    rw [if_neg]
    rintro (hft | hne)
    · exact hf hft
    · exact hne hl
  · intro h
    unfold Translate
    rw [if_pos h]

/-- Concrete instance of C9: source language en, force-translation off,
resolving in en performs no lookup and no loader call. -/
theorem C9_witness :
    Translate msSix [] (s2l "app.msg") (s2l "hello") (s2l "en") = (.ok [], [], 0) :=
  (C9_translate_source_lang msSix [] (s2l "app.msg") (s2l "hello") (s2l "en")).1
    (by constructor <;> decide)

/-- C10 counterexample.  The claim says the suffix component is the entire
remainder after the first dot, so for category a.b.c it would be b.c; the
code splits on every dot and takes element 1, yielding b, and the cache
key is a/en/b, not a/en/b.c. -/
theorem C10_counterexample :
    nth1 (splitOnDot (s2l "a.b.c")) = s2l "b" ∧
    cacheKey (s2l "a.b.c") (s2l "en") = s2l "a/en/b" ∧
    s2l "b" ≠ s2l "b.c" ∧ s2l "a/en/b" ≠ s2l "a/en/b.c" := by
  refine ⟨by decide, by decide, by decide, by decide⟩

/-- C10 as amended: the namespace is the text before the first dot and the
suffix is the segment between the first and second dot (element 1 of
splitting on every dot) - text after a second dot is dropped - and the
cache key is namespace/lang/suffix in both the one-dot and the several-dot
case. -/
theorem C10_suffix_second_segment (ns suffix rest lang : Str)
    (hns : '.' ∉ ns) (hsuf : '.' ∉ suffix) :
    (splitOnDot (ns ++ '.' :: (suffix ++ '.' :: rest))).headD [] = ns ∧
    nth1 (splitOnDot (ns ++ '.' :: (suffix ++ '.' :: rest))) = suffix ∧
    cacheKey (ns ++ '.' :: (suffix ++ '.' :: rest)) lang =
      ns ++ '/' :: lang ++ '/' :: suffix ∧
    (splitOnDot (ns ++ '.' :: suffix)).headD [] = ns ∧
    nth1 (splitOnDot (ns ++ '.' :: suffix)) = suffix ∧
    cacheKey (ns ++ '.' :: suffix) lang = ns ++ '/' :: lang ++ '/' :: suffix := by
  have h1 : splitOnDot (ns ++ '.' :: (suffix ++ '.' :: rest)) =
      ns :: splitOnDot (suffix ++ '.' :: rest) := splitOnDot_append ns _ hns
  have h2 : splitOnDot (suffix ++ '.' :: rest) = suffix :: splitOnDot rest :=
    splitOnDot_append suffix rest hsuf
  have h3 : splitOnDot (ns ++ '.' :: suffix) = ns :: splitOnDot suffix :=
    splitOnDot_append ns suffix hns
  have h4 : splitOnDot suffix = [suffix] := splitOnDot_no_dot suffix hsuf
  refine ⟨?_, ?_, ?_, ?_, ?_, ?_⟩ <;> simp [cacheKey, nth1, h1, h2, h3, h4]

/-- Concrete instance of the amended C10 at category a.b.c. -/
theorem C10_witness :
    (splitOnDot (s2l "a" ++ '.' :: (s2l "b" ++ '.' :: s2l "c"))).headD [] = s2l "a" ∧
    nth1 (splitOnDot (s2l "a" ++ '.' :: (s2l "b" ++ '.' :: s2l "c"))) = s2l "b" ∧
    cacheKey (s2l "a" ++ '.' :: (s2l "b" ++ '.' :: s2l "c")) (s2l "en") =
      s2l "a" ++ '/' :: s2l "en" ++ '/' :: s2l "b" ∧
    (splitOnDot (s2l "a" ++ '.' :: s2l "b")).headD [] = s2l "a" ∧
    nth1 (splitOnDot (s2l "a" ++ '.' :: s2l "b")) = s2l "b" ∧
    cacheKey (s2l "a" ++ '.' :: s2l "b") (s2l "en") =
      s2l "a" ++ '/' :: s2l "en" ++ '/' :: s2l "b" :=
  C10_suffix_second_segment (s2l "a") (s2l "b") (s2l "c") (s2l "en")
    (by decide) (by decide)
